import Mathlib

/-!
Shallow embedding of the structured-output extraction subsystem of
`metagpt/utils/common.py` (classes `OutputParser` and `CodeParser`).

Python strings are modelled as Lean `String` / `List Char`.  Python
exceptions are modelled with `Option` / `Except`: a function that can raise
returns `none` / `Except.error` on the raising paths.  The concrete regular
expressions used by the source are compiled by hand into explicit search
functions over `List Char`; each such function carries a comment deriving it
from the pattern's leftmost-match/greedy/lazy semantics.
-/

/-- Python's default whitespace set for `str.strip` and the ASCII part of
regex `\s`: space, tab, newline, carriage return, vertical tab, form feed. -/
def isPyWS (c : Char) : Bool :=
  c = ' ' || c = '\t' || c = '\n' || c = '\r' || c = '\x0b' || c = '\x0c'

/-- Python `str.strip()`: drop leading and trailing whitespace. -/
def pyStrip (s : List Char) : List Char :=
  ((s.dropWhile isPyWS).reverse.dropWhile isPyWS).reverse

/-- `pyStrip` packaged back into a `String`. -/
def pyStripS (s : List Char) : String :=
  String.mk (pyStrip s)

/-- Python `text.split("##")`: split on non-overlapping occurrences of the
two-character heading delimiter, scanning left to right. -/
def splitHH : List Char → List (List Char)
  | '#' :: '#' :: t => [] :: splitHH t
  | x :: t =>
    match splitHH t with
    | h :: r => (x :: h) :: r
    | [] => [[x]]
  | [] => [[]]

/-- Python `text.split("\n", 1)` unpacked into two pieces; `none` models the
`ValueError` raised by unpacking when the string holds no line break. -/
def splitNL1 : List Char → Option (List Char × List Char)
  | [] => none
  | '\n' :: t => some ([], t)
  | x :: t => (splitNL1 t).map (fun p => (x :: p.1, p.2))

/-- Python `text.split(sep)` for a one-character separator. -/
def pySplitChar (sep : Char) : List Char → List (List Char)
  | [] => [[]]
  | x :: t =>
    if x = sep then [] :: pySplitChar sep t
    else
      match pySplitChar sep t with
      | h :: r => (x :: h) :: r
      | [] => [[x]]

/-- Python slice `s[a:b]` (clamping, empty when `b ≤ a`). -/
def pySlice (s : List Char) (a b : Nat) : List Char :=
  (s.drop a).take (b - a)

/-- Indices (ascending) of the occurrences of character `c` in `s`; gives
Python `str.find` as `head?` and `str.rfind` as `getLast?`. -/
def occIdx (c : Char) (s : List Char) : List Nat :=
  (s.enum.filter (fun p => p.2 = c)).map (fun p => p.1)

/-- Boolean prefix test on character lists. -/
def startsW : List Char → List Char → Bool
  | [], _ => true
  | _ :: _, [] => false
  | a :: as, b :: bs => a = b && startsW as bs

/-- Boolean substring test (Python `needle in hay`). -/
def isSub (p : List Char) : List Char → Bool
  | [] => startsW p []
  | x :: t => startsW p (x :: t) || isSub p t

/-- Python `needle in hay` over `String`. -/
def isSubS (needle hay : String) : Bool :=
  isSub needle.data hay.data

/-- Values produced by Python's `ast.literal_eval` restricted to the shapes
the source manipulates: strings, integers, booleans, `None`, lists, dicts. -/
inductive PyVal where
  | str (s : String)
  | int (z : Int)
  | bool (b : Bool)
  | pynone
  | list (xs : List PyVal)
  | dict (xs : List (PyVal × PyVal))

/-- The Python exceptions the modelled code can raise or catch. -/
inductive PyRaise where
  | valueError
  | literalEvalError
deriving DecidableEq

/-- The `data_type` argument of `OutputParser.extract_struct`. -/
inductive DataType where
  | list
  | dict
deriving DecidableEq

/-- Digits to a natural number. -/
def digitsToNat (ds : List Char) : Nat :=
  ds.foldl (fun a c => a * 10 + (c.toNat - '0'.toNat)) 0

/-- Quoted-string body up to the closing quote `q` (escape sequences are not
needed by any input the source's callers exercise in the claims). -/
def parseStrLit (q : Char) : List Char → Option (List Char × List Char)
  | [] => none
  | x :: t =>
    if x = q then some ([], t)
    else (parseStrLit q t).map (fun p => (x :: p.1, p.2))

mutual

/-- Recursive-descent model of `ast.literal_eval`'s grammar on the literal
subset (nested lists, dicts, strings, integers, booleans, `None`), with fuel
for termination.  Returns the value and the unconsumed remainder. -/
def parseVal : Nat → List Char → Option (PyVal × List Char)
  | 0, _ => none
  | Nat.succ n, s0 =>
    match s0.dropWhile isPyWS with
    | [] => none
    | c :: t =>
      if c = '[' then (parseListItems n t).map (fun p => (PyVal.list p.1, p.2))
      else if c = '{' then (parseDictItems n t).map (fun p => (PyVal.dict p.1, p.2))
      else if c = '\'' then (parseStrLit '\'' t).map (fun p => (PyVal.str (String.mk p.1), p.2))
      else if c = '"' then (parseStrLit '"' t).map (fun p => (PyVal.str (String.mk p.1), p.2))
      else if c = '-' then
        match t.takeWhile Char.isDigit with
        | [] => none
        | ds => some (PyVal.int (-(Int.ofNat (digitsToNat ds))), t.dropWhile Char.isDigit)
      else if c.isDigit then
        some (PyVal.int (Int.ofNat (digitsToNat ((c :: t).takeWhile Char.isDigit))),
              (c :: t).dropWhile Char.isDigit)
      else if startsW ("True".data) (c :: t) then some (PyVal.bool true, (c :: t).drop 4)
      else if startsW ("False".data) (c :: t) then some (PyVal.bool false, (c :: t).drop 5)
      else if startsW ("None".data) (c :: t) then some (PyVal.pynone, (c :: t).drop 4)
      else none

/-- List elements after an opening `[`, allowing a trailing comma as
`ast.literal_eval` does. -/
def parseListItems : Nat → List Char → Option (List PyVal × List Char)
  | 0, _ => none
  | Nat.succ n, s0 =>
    match s0.dropWhile isPyWS with
    | ']' :: r => some ([], r)
    | s =>
      match parseVal n s with
      | none => none
      | some (v, r1) =>
        match r1.dropWhile isPyWS with
        | ']' :: r2 => some ([v], r2)
        | ',' :: r2 => (parseListItems n r2).map (fun p => (v :: p.1, p.2))
        | _ => none

/-- Dict entries after an opening brace, allowing a trailing comma. -/
def parseDictItems : Nat → List Char → Option (List (PyVal × PyVal) × List Char)
  | 0, _ => none
  | Nat.succ n, s0 =>
    match s0.dropWhile isPyWS with
    | '}' :: r => some ([], r)
    | s =>
      match parseVal n s with
      | none => none
      | some (k, r1) =>
        match r1.dropWhile isPyWS with
        | ':' :: r2 =>
          match parseVal n r2 with
          | none => none
          | some (v, r3) =>
            match r3.dropWhile isPyWS with
            | '}' :: r4 => some ([(k, v)], r4)
            | ',' :: r4 => (parseDictItems n r4).map (fun p => ((k, v) :: p.1, p.2))
            | _ => none
        | _ => none

end

/-- Model of `ast.literal_eval`: parse a whole string as one literal;
`Except.error` models the `ValueError`/`SyntaxError` it raises on anything
else.  Fuel `2 * length + 2` dominates the recursion depth, which consumes at
least one character per two fuel units. -/
def literalEval (s : String) : Except PyRaise PyVal :=
  match parseVal (2 * s.data.length + 2) s.data with
  | some (v, r) =>
    if r.dropWhile isPyWS = [] then Except.ok v else Except.error PyRaise.literalEvalError
  | none => Except.error PyRaise.literalEvalError

/-- Python `isinstance(result, data_type)` for `data_type ∈ {list, dict}`. -/
def typeMatches : PyVal → DataType → Bool
  | PyVal.list _, DataType.list => true
  | PyVal.dict _, DataType.dict => true
  | _, _ => false

/-- Python dict assignment `d[k] = v` on an insertion-ordered association
list: replace the value in place when the key exists, else append. -/
def pyDictInsert : List (String × String) → String → String → List (String × String)
  | [], k, v => [(k, v)]
  | p :: d, k, v => if p.1 = k then (k, v) :: d else p :: pyDictInsert d k v

/-- Python dict lookup `d.get(k)` on the association list. -/
def pyLookup (k : String) : List (String × String) → Option String
  | [] => none
  | p :: d => if p.1 = k then some p.2 else pyLookup k d

/-- Number of entries of the association list carrying key `k`. -/
def countKey (k : String) (d : List (String × String)) : Nat :=
  (d.filter (fun p => p.1 = k)).length

/-- Insert every pair of `ps`, in order, into the dict `d`. -/
def insertAll (ps : List (String × String)) (d : List (String × String)) :
    List (String × String) :=
  ps.foldl (fun d p => pyDictInsert d p.1 p.2) d

/-- Value of the last pair of `ps` whose key is `k` (document order). -/
def lastVal (k : String) : List (String × String) → Option String
  | [] => none
  | p :: ps =>
    match lastVal k ps with
    | some v => some v
    | none => if p.1 = k then some p.2 else none

/-- Outcome of one iteration of the `OutputParser.parse_blocks` loop body. -/
inductive BlockStep where
  | raise
  | skip
  | entry (k v : String)

/-- Loop body of `OutputParser.parse_blocks`: skip whitespace-only fragments;
`title, content = block.split("\n", 1)` raises `ValueError` when the fragment
has no line break, and `block_title[-1]` raises `IndexError` when the title is
empty; a trailing colon is dropped from the raw title; title and body are
stripped. -/
def OutputParser.procBlock (b : List Char) : BlockStep :=
  if pyStrip b = [] then BlockStep.skip
  else
    match splitNL1 b with
    | none => BlockStep.raise
    | some (t, c) =>
      match t.getLast? with
      | none => BlockStep.raise
      | some ch =>
        BlockStep.entry (pyStripS (if ch = ':' then t.dropLast else t)) (pyStripS c)

/-- Fold step of `OutputParser.parse_blocks`: thread the dict through the loop,
aborting (`none`) on a raising fragment. -/
def OutputParser.stepFn (acc : Option (List (String × String))) (b : List Char) :
    Option (List (String × String)) :=
  acc.bind (fun d =>
    match OutputParser.procBlock b with
    | BlockStep.raise => none
    | BlockStep.skip => some d
    | BlockStep.entry k v => some (pyDictInsert d k v))

/-- `OutputParser.parse_blocks`: split on `"##"` and run the loop; `none`
models the exception escaping the loop. -/
def OutputParser.parse_blocks (text : String) : Option (List (String × String)) :=
  (splitHH text.data).foldl OutputParser.stepFn (some [])

/-- The ordered list of (title, body) pairs the `OutputParser.parse_blocks`
loop would insert, kept separate from the dict accumulation. -/
def OutputParser.sectionsGo : List (List Char) → Option (List (String × String))
  | [] => some []
  | b :: r =>
    match OutputParser.procBlock b with
    | BlockStep.raise => none
    | BlockStep.skip => OutputParser.sectionsGo r
    | BlockStep.entry k v => (OutputParser.sectionsGo r).map (fun l => (k, v) :: l)

/-- Sections of a document in document order, per `OutputParser.parse_blocks`'
per-fragment processing. -/
def OutputParser.sections (text : String) : Option (List (String × String)) :=
  OutputParser.sectionsGo (splitHH text.data)

/-- Loop body of `CodeParser.parse_blocks`: skip whitespace-only fragments;
a fragment with no line break becomes `(fragment, "")`; title and body are
stripped; no colon handling. -/
def CodeParser.procBlock (b : List Char) : Option (String × String) :=
  if pyStrip b = [] then none
  else
    match splitNL1 b with
    | none => some (pyStripS b, "")
    | some (t, c) => some (pyStripS t, pyStripS c)

/-- Fold step of `CodeParser.parse_blocks`. -/
def CodeParser.stepFn (d : List (String × String)) (b : List Char) :
    List (String × String) :=
  match CodeParser.procBlock b with
  | none => d
  | some kv => pyDictInsert d kv.1 kv.2

/-- `CodeParser.parse_blocks`: split on `"##"` and accumulate the dict. -/
def CodeParser.parse_blocks (text : String) : List (String × String) :=
  (splitHH text.data).foldl CodeParser.stepFn []

/-- Sections in document order, per `CodeParser.parse_blocks`' per-fragment
processing. -/
def CodeParser.sections (text : String) : List (String × String) :=
  (splitHH text.data).filterMap CodeParser.procBlock

/-- The `for k, v in blocks.items(): if block in k: return v` loop of
`CodeParser.parse_block`, returning `""` past the end. -/
def firstContaining (block : String) : List (String × String) → String
  | [] => ""
  | p :: d => if isSubS block p.1 then p.2 else firstContaining block d

/-- `CodeParser.parse_block`: substring lookup of a named block. -/
def CodeParser.parse_block (block : String) (text : String) : String :=
  firstContaining block (CodeParser.parse_blocks text)

/-- The three backtick characters opening and closing a fence. -/
def fenceChars : List Char :=
  "```".data

/-- Lazy capture `(.*?)` followed by a literal closing fence: the shortest
(possibly empty) span of characters up to the first occurrence of `pat`;
`none` when `pat` never occurs. -/
def captureUntil (pat : List Char) : List Char → Option (List Char)
  | [] => none
  | x :: t =>
    if startsW pat (x :: t) then some []
    else (captureUntil pat t).map (fun r => x :: r)

/-- One anchored attempt of the regex `r"```lang\s+(.*?)```"` (DOTALL) at the
head of `s`: literal fence and language tag, at least one whitespace
character, then the greedy whitespace run followed by the lazy capture up to
the first closing fence.  Backtracking the greedy `\s+` can never help, since
a closing fence cannot begin inside the whitespace run. -/
def matchAtLang (lang : List Char) (s : List Char) : Option (List Char) :=
  if startsW (fenceChars ++ lang) s then
    match s.drop (3 + lang.length) with
    | [] => none
    | x :: t => if isPyWS x then captureUntil fenceChars ((x :: t).dropWhile isPyWS) else none
  else none

/-- `re.search` of `r"```lang\s+(.*?)```"`: try each start position left to
right, returning the first successful capture. -/
def searchFence (lang : List Char) : List Char → Option (List Char)
  | [] => none
  | x :: t =>
    match matchAtLang lang (x :: t) with
    | some cap => some cap
    | none => searchFence lang t

/-- The `.*?\s+(.*?)```"` tail of the language-free pattern applied after an
opening fence: the lazy `.*?` consumes the fewest characters (DOTALL) such
that a whitespace run followed by a captured span and a closing fence
follows. -/
def scanLazy : List Char → Option (List Char)
  | [] => none
  | x :: t =>
    if isPyWS x then
      match captureUntil fenceChars ((x :: t).dropWhile isPyWS) with
      | some cap => some cap
      | none => scanLazy t
    else scanLazy t

/-- `re.search` of `r"```.*?\s+(.*?)```"` (DOTALL): the pattern used by
`OutputParser.parse_code` when no language is given. -/
def searchNoLang : List Char → Option (List Char)
  | [] => none
  | x :: t =>
    if startsW fenceChars (x :: t) then
      match scanLazy ((x :: t).drop 3) with
      | some cap => some cap
      | none => searchNoLang t
    else searchNoLang t

/-- Pattern selection of `OutputParser.parse_code`:
`rf"```{lang}\s+(.*?)```" if lang else r"```.*?\s+(.*?)```"`. -/
def fenceSearchOP (lang : String) (s : List Char) : Option (List Char) :=
  if lang = "" then searchNoLang s else searchFence lang.data s

/-- `OutputParser.parse_code`: return the captured group of the first fence,
else log and return the empty string (lenient mode). -/
def OutputParser.parse_code (text : String) (lang : String := "") : String :=
  match fenceSearchOP lang text.data with
  | some cap => String.mk cap
  | none => ""

/-- `CodeParser.parse_code`: optionally narrow to the named block, then return
the captured group of the first fence matching `lang`, else log and return the
(possibly narrowed) text unchanged (strict mode). -/
def CodeParser.parse_code (block : String) (text : String) (lang : String := "cpp") : String :=
  let t := if block = "" then text else CodeParser.parse_block block text
  match searchFence lang.data t.data with
  | some cap => String.mk cap
  | none => t

/-- `OutputParser.extract_content`: capture of
`rf"\[{tag}\](.*?)\[/{tag}\]"` (DOTALL) — the first start position holding the
opening marker and followed somewhere by the closing marker, with the lazy
capture running to the first closing marker; `Except.error` models the
`ValueError` raised when the search fails. -/
def searchTag (o c : List Char) : List Char → Option (List Char)
  | [] => none
  | x :: t =>
    if startsW o (x :: t) then
      match captureUntil c ((x :: t).drop o.length) with
      | some cap => some cap
      | none => searchTag o c t
    else searchTag o c t

/-- `OutputParser.extract_content` itself: strip the captured span, raise on
no match. -/
def OutputParser.extract_content (text : String) (tag : String := "CONTENT") :
    Except PyRaise String :=
  match searchTag ("[" ++ tag ++ "]").data ("[/" ++ tag ++ "]").data text.data with
  | some cap => Except.ok (String.mk (pyStrip cap))
  | none => Except.error PyRaise.valueError

/-- `OutputParser.extract_struct`: `text.find` of the opening bracket for the
requested type, `text.rfind` of the closing bracket; on both found, slice and
`ast.literal_eval` inside a `try` catching `ValueError`/`SyntaxError` (the
logging branches fall through, returning Python `None`); on a missing bracket,
return the empty structure. -/
def OutputParser.extract_struct (text : String) (data_type : DataType) :
    Except PyRaise PyVal :=
  match (occIdx (if data_type = DataType.list then '[' else '{') text.data).head?,
        (occIdx (if data_type = DataType.list then ']' else '}') text.data).getLast? with
  | some a, some b =>
    match literalEval (String.mk (pySlice text.data a (b + 1))) with
    | Except.ok result =>
      if typeMatches result data_type then Except.ok result else Except.ok PyVal.pynone
    | Except.error _ => Except.ok PyVal.pynone
  | _, _ => Except.ok (if data_type = DataType.list then PyVal.list [] else PyVal.dict [])

/-- Opening brackets that have some closing bracket strictly after them; the
regex `r"\s*(.*=.*)?(\[.*\])"` (DOTALL) can match exactly when one exists. -/
def validOpens (s : List Char) : List Nat :=
  (occIdx '[' s).filter (fun p => (occIdx ']' s).any (fun q => p < q))

/-- Whether some `[` is followed later by some `]`. -/
def hasBracketPair (s : List Char) : Bool :=
  (occIdx '[' s).any (fun p => (occIdx ']' s).any (fun q => p < q))

/-- Group 2 of `re.search(r"\s*(.*=.*)?(\[.*\])", text, re.DOTALL)`.  Compiled
semantics: the optional greedy group `(.*=.*)?` engages whenever some `=` is
followed by a viable `[`; its greedy inner stars pick the last such `=` and
then the last viable `[` after it; otherwise the match anchors on the first
viable `[`.  The final greedy `.*` inside group 2 always runs to the last `]`
of the text.  `none` when no `[` is followed by a `]`. -/
def flGroup2 (s : List Char) : Option (List Char) :=
  match validOpens s with
  | [] => none
  | p0 :: _ =>
    match ((occIdx '=' s).filter (fun e => (validOpens s).any (fun p => e < p))).getLast? with
    | some e =>
      some (pySlice s (((validOpens s).filter (fun p => e < p)).getLast?.getD p0)
        ((occIdx ']' s).foldl max 0 + 1))
    | none => some (pySlice s p0 ((occIdx ']' s).foldl max 0 + 1))

/-- `OutputParser.parse_file_list`: on a regex match, `ast.literal_eval` the
bracketed group with no exception handling (errors propagate to the caller);
on no match, fall back to `text.split("\n")` verbatim. -/
def OutputParser.parse_file_list (text : String) : Except PyRaise PyVal :=
  match flGroup2 text.data with
  | some g =>
    match literalEval (String.mk g) with
    | Except.ok v => Except.ok v
    | Except.error e => Except.error e
  | none =>
    Except.ok (PyVal.list ((pySplitChar '\n' text.data).map (fun l => PyVal.str (String.mk l))))

/-! ### Prefix and substring lemmas -/

theorem startsW_nil_false (p : List Char) (h : p ≠ []) : startsW p [] = false := by
  cases p with
  | nil => exact absurd rfl h
  | cons a as => rfl

theorem startsW_mono (p : List Char) :
    ∀ u v : List Char, startsW p u = true → u <+: v → startsW p v = true := by
  induction p with
  | nil => intro u v _ _; rfl
  | cons a as ih =>
    intro u v hu huv
    cases u with
    | nil => simp [startsW] at hu
    | cons b u' =>
      cases v with
      | nil => exact absurd (List.prefix_nil.mp huv) (by simp)
      | cons c v' =>
        obtain ⟨hbc, huv'⟩ := List.cons_prefix_cons.mp huv
        simp only [startsW, Bool.and_eq_true, decide_eq_true_eq] at hu ⊢
        exact ⟨hbc ▸ hu.1, ih u' v' hu.2 huv'⟩

theorem startsW_append_left (a b : List Char) :
    ∀ s, startsW (a ++ b) s = true → startsW a s = true := by
  induction a with
  | nil => intro s _; rfl
  | cons x as ih =>
    intro s h
    cases s with
    | nil => simp [startsW] at h
    | cons y t =>
      simp only [List.cons_append, startsW, Bool.and_eq_true] at h ⊢
      exact ⟨h.1, ih t h.2⟩

theorem isSub_head (pat s : List Char) (h : isSub pat s = false) :
    startsW pat s = false := by
  cases s with
  | nil => exact h
  | cons x t =>
    simp only [isSub, Bool.or_eq_false_iff] at h
    exact h.1

theorem isSub_tail (pat : List Char) (x : Char) (t : List Char)
    (h : isSub pat (x :: t) = false) : isSub pat t = false := by
  simp only [isSub, Bool.or_eq_false_iff] at h
  exact h.2

theorem isSub_drop (pat s : List Char) (h : isSub pat s = false) :
    ∀ n, isSub pat (s.drop n) = false := by
  induction s with
  | nil => intro n; simpa using h
  | cons x t ih =>
    intro n
    cases n with
    | zero => exact h
    | succ m => exact ih (isSub_tail pat x t h) m

theorem captureUntil_le (pat : List Char) :
    ∀ s cap, captureUntil pat s = some cap → cap <+: s := by
  intro s
  induction s with
  | nil => intro cap h; simp [captureUntil] at h
  | cons x t ih =>
    intro cap h
    by_cases hs : startsW pat (x :: t) = true
    · simp only [captureUntil, if_pos hs, Option.some.injEq] at h
      exact h ▸ ⟨_, rfl⟩
    · simp only [captureUntil, if_neg hs, Option.map_eq_some'] at h
      obtain ⟨c', hc', rfl⟩ := h
      exact List.cons_prefix_cons.mpr ⟨rfl, ih c' hc'⟩

theorem captureUntil_no_occ (pat : List Char) (hpat : pat ≠ []) :
    ∀ s cap, captureUntil pat s = some cap → isSub pat cap = false := by
  intro s
  induction s with
  | nil => intro cap h; simp [captureUntil] at h
  | cons x t ih =>
    intro cap h
    by_cases hs : startsW pat (x :: t) = true
    · simp only [captureUntil, if_pos hs, Option.some.injEq] at h
      subst h
      simpa [isSub] using startsW_nil_false pat hpat
    · simp only [captureUntil, if_neg hs, Option.map_eq_some'] at h
      obtain ⟨c', hc', rfl⟩ := h
      simp only [isSub, Bool.or_eq_false_iff]
      refine ⟨?_, ih c' hc'⟩
      by_contra hw
      rw [Bool.not_eq_false] at hw
      have : (x :: c') <+: (x :: t) :=
        List.cons_prefix_cons.mpr ⟨rfl, captureUntil_le pat t c' hc'⟩
      exact hs (startsW_mono pat (x :: c') (x :: t) hw this)

theorem isSub_false_captureUntil (pat : List Char) :
    ∀ s, isSub pat s = false → captureUntil pat s = none := by
  intro s
  induction s with
  | nil => intro _; rfl
  | cons x t ih =>
    intro h
    simp only [isSub, Bool.or_eq_false_iff] at h
    simp [captureUntil, h.1, ih h.2]

/-! ### Fence-search lemmas -/

theorem fenceChars_ne_nil : fenceChars ≠ [] := by decide

theorem matchAtLang_some_no_triple (lang s cap : List Char)
    (h : matchAtLang lang s = some cap) : isSub fenceChars cap = false := by
  unfold matchAtLang at h
  split at h
  · split at h
    · exact absurd h (by simp)
    · split at h
      · exact captureUntil_no_occ fenceChars fenceChars_ne_nil _ cap h
      · exact absurd h (by simp)
  · exact absurd h (by simp)

theorem searchFence_some_no_triple (lang : List Char) :
    ∀ s cap, searchFence lang s = some cap → isSub fenceChars cap = false := by
  intro s
  induction s with
  | nil => intro cap h; simp [searchFence] at h
  | cons x t ih =>
    intro cap h
    unfold searchFence at h
    revert h
    cases hm : matchAtLang lang (x :: t) with
    | some c => intro h; cases h; exact matchAtLang_some_no_triple lang (x :: t) cap hm
    | none => intro h; exact ih cap h

theorem scanLazy_some_no_triple :
    ∀ s cap, scanLazy s = some cap → isSub fenceChars cap = false := by
  intro s
  induction s with
  | nil => intro cap h; simp [scanLazy] at h
  | cons x t ih =>
    intro cap h
    unfold scanLazy at h
    by_cases hw : isPyWS x = true
    · rw [if_pos hw] at h
      revert h
      cases hc : captureUntil fenceChars ((x :: t).dropWhile isPyWS) with
      | some c =>
        intro h; cases h
        exact captureUntil_no_occ fenceChars fenceChars_ne_nil _ cap hc
      | none => intro h; exact ih cap h
    · rw [if_neg hw] at h
      exact ih cap h

theorem searchNoLang_some_no_triple :
    ∀ s cap, searchNoLang s = some cap → isSub fenceChars cap = false := by
  intro s
  induction s with
  | nil => intro cap h; simp [searchNoLang] at h
  | cons x t ih =>
    intro cap h
    unfold searchNoLang at h
    by_cases hs : startsW fenceChars (x :: t) = true
    · rw [if_pos hs] at h
      revert h
      cases hm : scanLazy ((x :: t).drop 3) with
      | some c => intro h; cases h; exact scanLazy_some_no_triple _ cap hm
      | none => intro h; exact ih cap h
    · rw [if_neg hs] at h
      exact ih cap h

theorem matchAtLang_none_of_no_triple (lang s : List Char)
    (h : isSub fenceChars s = false) : matchAtLang lang s = none := by
  unfold matchAtLang
  rw [if_neg]
  intro hw
  have := startsW_append_left fenceChars lang s hw
  rw [isSub_head fenceChars s h] at this
  exact absurd this (by simp)

theorem searchFence_none_of_no_triple (lang : List Char) :
    ∀ s, isSub fenceChars s = false → searchFence lang s = none := by
  intro s
  induction s with
  | nil => intro _; rfl
  | cons x t ih =>
    intro h
    unfold searchFence
    rw [matchAtLang_none_of_no_triple lang (x :: t) h]
    exact ih (isSub_tail _ x t h)

theorem searchNoLang_none_of_no_triple :
    ∀ s, isSub fenceChars s = false → searchNoLang s = none := by
  intro s
  induction s with
  | nil => intro _; rfl
  | cons x t ih =>
    intro h
    unfold searchNoLang
    rw [if_neg (by simp [isSub_head fenceChars (x :: t) h])]
    exact ih (isSub_tail _ x t h)

theorem fenceSearchOP_none_of_no_triple (lang : String) (s : List Char)
    (h : isSub fenceChars s = false) : fenceSearchOP lang s = none := by
  unfold fenceSearchOP
  by_cases hl : lang = ""
  · rw [if_pos hl]; exact searchNoLang_none_of_no_triple s h
  · rw [if_neg hl]; exact searchFence_none_of_no_triple lang.data s h

theorem fenceSearchOP_some_no_triple (lang : String) (s cap : List Char)
    (h : fenceSearchOP lang s = some cap) : isSub fenceChars cap = false := by
  unfold fenceSearchOP at h
  by_cases hl : lang = ""
  · rw [if_pos hl] at h; exact searchNoLang_some_no_triple s cap h
  · rw [if_neg hl] at h; exact searchFence_some_no_triple lang.data s cap h

/-! ### Tag-search lemmas -/

theorem searchTag_none_of_no_open (o c : List Char) :
    ∀ s, isSub o s = false → searchTag o c s = none := by
  intro s
  induction s with
  | nil => intro _; rfl
  | cons x t ih =>
    intro h
    unfold searchTag
    rw [if_neg (by simp [isSub_head o (x :: t) h])]
    exact ih (isSub_tail o x t h)

theorem searchTag_none_of_no_close (o c : List Char) :
    ∀ s, isSub c s = false → searchTag o c s = none := by
  intro s
  induction s with
  | nil => intro _; rfl
  | cons x t ih =>
    intro h
    unfold searchTag
    by_cases hs : startsW o (x :: t) = true
    · rw [if_pos hs,
        isSub_false_captureUntil c _ (isSub_drop c (x :: t) h o.length)]
      exact ih (isSub_tail c x t h)
    · rw [if_neg hs]
      exact ih (isSub_tail c x t h)

/-! ### Dict lemmas: Python dict semantics on the association list -/

theorem pyLookup_insert_self (k v : String) :
    ∀ d, pyLookup k (pyDictInsert d k v) = some v := by
  intro d
  induction d with
  | nil => simp [pyDictInsert, pyLookup]
  | cons p d ih =>
    by_cases hp : p.1 = k
    · simp [pyDictInsert, hp, pyLookup]
    · simp [pyDictInsert, hp, pyLookup, ih]

theorem pyLookup_insert_ne (k k' v : String) (h : ¬k' = k) :
    ∀ d, pyLookup k (pyDictInsert d k' v) = pyLookup k d := by
  intro d
  induction d with
  | nil => simp [pyDictInsert, pyLookup, h]
  | cons p d ih =>
    by_cases hp : p.1 = k'
    · have : ¬p.1 = k := by rw [hp]; exact h
      simp [pyDictInsert, hp, pyLookup, h, this]
    · have hk' : ¬k = k' := fun hh => h hh.symm
      by_cases hk : p.1 = k
      · simp [pyDictInsert, hp, pyLookup, hk, hk']
      · simp [pyDictInsert, hp, pyLookup, hk, hk', ih]

theorem countKey_cons (k : String) (p : String × String) (d : List (String × String)) :
    countKey k (p :: d) = (if p.1 = k then 1 else 0) + countKey k d := by
  by_cases hp : p.1 = k
  · simp [countKey, List.filter_cons, hp, Nat.add_comm]
  · simp [countKey, List.filter_cons, hp]

theorem countKey_insert_self (k v : String) :
    ∀ d, countKey k (pyDictInsert d k v) = max 1 (countKey k d) := by
  intro d
  induction d with
  | nil => simp [pyDictInsert, countKey, List.filter_cons]
  | cons p d ih =>
    by_cases hp : p.1 = k
    · rw [pyDictInsert, if_pos hp, countKey_cons, countKey_cons, if_pos hp, if_pos rfl]
      have : 1 ≤ 1 + countKey k d := Nat.le_add_right 1 _
      omega
    · rw [pyDictInsert, if_neg hp, countKey_cons, countKey_cons, if_neg hp, ih]
      simp

theorem countKey_insert_ne (k k' v : String) (h : ¬k' = k) :
    ∀ d, countKey k (pyDictInsert d k' v) = countKey k d := by
  intro d
  induction d with
  | nil => simp [pyDictInsert, countKey, List.filter_cons, h]
  | cons p d ih =>
    by_cases hp : p.1 = k'
    · have hpk : ¬p.1 = k := by rw [hp]; exact h
      rw [pyDictInsert, if_pos hp, countKey_cons, countKey_cons, if_neg hpk, if_neg h]
    · rw [pyDictInsert, if_neg hp, countKey_cons, countKey_cons, ih]

theorem countKey_insertAll_le (k : String) :
    ∀ (ps : List (String × String)) (d : List (String × String)),
      countKey k d ≤ 1 → countKey k (insertAll ps d) ≤ 1 := by
  intro ps
  induction ps with
  | nil => intro d h; exact h
  | cons p ps ih =>
    intro d h
    show countKey k (insertAll ps (pyDictInsert d p.1 p.2)) ≤ 1
    apply ih
    by_cases hp : p.1 = k
    · subst hp
      rw [countKey_insert_self]
      omega
    · rw [countKey_insert_ne k p.1 p.2 hp]
      exact h

theorem pyLookup_some_count (k : String) :
    ∀ (d : List (String × String)) (v : String),
      pyLookup k d = some v → 1 ≤ countKey k d := by
  intro d
  induction d with
  | nil => intro v h; simp [pyLookup] at h
  | cons p d ih =>
    intro v h
    by_cases hp : p.1 = k
    · rw [countKey_cons, if_pos hp]; omega
    · rw [pyLookup, if_neg hp] at h
      rw [countKey_cons, if_neg hp]
      have := ih v h
      omega

theorem pyLookup_insertAll (k : String) :
    ∀ (ps : List (String × String)) (d : List (String × String)),
      pyLookup k (insertAll ps d) =
        match lastVal k ps with
        | some v => some v
        | none => pyLookup k d := by
  intro ps
  induction ps with
  | nil => intro d; rfl
  | cons p ps ih =>
    intro d
    show pyLookup k (insertAll ps (pyDictInsert d p.1 p.2)) = _
    rw [ih]
    cases hl : lastVal k ps with
    | some v => simp [lastVal, hl]
    | none =>
      by_cases hp : p.1 = k
      · subst hp
        simp [lastVal, hl, pyLookup_insert_self]
      · simp [lastVal, hl, hp, pyLookup_insert_ne k p.1 p.2 hp]

theorem lastVal_none_count (k : String) :
    ∀ ps : List (String × String), lastVal k ps = none → countKey k ps = 0 := by
  intro ps
  induction ps with
  | nil => intro _; rfl
  | cons p ps ih =>
    intro h
    rw [lastVal] at h
    revert h
    cases hl : lastVal k ps with
    | some v => intro h; exact absurd h (by simp)
    | none =>
      intro h
      by_cases hp : p.1 = k
      · rw [if_pos hp] at h; exact absurd h (by simp)
      · rw [countKey_cons, if_neg hp, ih hl]

/-! ### Factorization of the block-splitting loops -/

theorem OP_foldl_stepFn_none :
    ∀ bs : List (List Char), bs.foldl OutputParser.stepFn none = none := by
  intro bs
  induction bs with
  | nil => rfl
  | cons b r ih => exact ih

theorem OP_foldl_stepFn_eq :
    ∀ (bs : List (List Char)) (d : List (String × String)),
      bs.foldl OutputParser.stepFn (some d) =
        (OutputParser.sectionsGo bs).map (fun ps => insertAll ps d) := by
  intro bs
  induction bs with
  | nil => intro d; rfl
  | cons b r ih =>
    intro d
    rw [List.foldl_cons, OutputParser.sectionsGo]
    cases hb : OutputParser.procBlock b with
    | raise =>
      have : OutputParser.stepFn (some d) b = none := by
        simp [OutputParser.stepFn, hb]
      rw [this, OP_foldl_stepFn_none]
      rfl
    | skip =>
      have : OutputParser.stepFn (some d) b = some d := by
        simp [OutputParser.stepFn, hb]
      rw [this, ih]
    | entry k v =>
      have : OutputParser.stepFn (some d) b = some (pyDictInsert d k v) := by
        simp [OutputParser.stepFn, hb]
      rw [this, ih]
      cases OutputParser.sectionsGo r with
      | none => rfl
      | some ps => rfl

theorem OP_parse_blocks_eq (text : String) :
    OutputParser.parse_blocks text =
      (OutputParser.sections text).map (fun ps => insertAll ps []) :=
  OP_foldl_stepFn_eq (splitHH text.data) []

theorem CP_foldl_stepFn_eq :
    ∀ (bs : List (List Char)) (d : List (String × String)),
      bs.foldl CodeParser.stepFn d = insertAll (bs.filterMap CodeParser.procBlock) d := by
  intro bs
  induction bs with
  | nil => intro d; rfl
  | cons b r ih =>
    intro d
    rw [List.foldl_cons, List.filterMap_cons]
    cases hb : CodeParser.procBlock b with
    | none =>
      have : CodeParser.stepFn d b = d := by simp [CodeParser.stepFn, hb]
      rw [this, ih]
    | some kv =>
      have : CodeParser.stepFn d b = pyDictInsert d kv.1 kv.2 := by
        simp [CodeParser.stepFn, hb]
      rw [this, ih]
      rfl

theorem CP_parse_blocks_eq (text : String) :
    CodeParser.parse_blocks text = insertAll (CodeParser.sections text) [] :=
  CP_foldl_stepFn_eq (splitHH text.data) []

/-! ### Supporting characterizations used by the claim theorems -/

/-- The strict extractor with an empty block name skips the block lookup. -/
theorem CodeParser.parse_code_empty_block (text lang : String) :
    CodeParser.parse_code "" text lang =
      (match searchFence lang.data text.data with
       | some cap => String.mk cap
       | none => text) := rfl

/-- When no bracket pair exists, the `parse_file_list` regex has no viable
opening bracket. -/
theorem flGroup2_none_of_no_pair (s : List Char) (h : hasBracketPair s = false) :
    flGroup2 s = none := by
  have hv : validOpens s = [] := by
    simp only [hasBracketPair, List.any_eq_false] at h
    simp only [validOpens, List.filter_eq_nil_iff]
    intro a ha
    simpa using h a ha
  unfold flGroup2
  rw [hv]

/-- First match of `firstContaining`, characterized by position. -/
theorem firstContaining_get (block : String) :
    ∀ (d : List (String × String)) (i : Nat) (h : i < d.length),
      isSubS block (d.get ⟨i, h⟩).1 = true →
      (∀ j (hj : j < i), isSubS block (d.get ⟨j, Nat.lt_trans hj h⟩).1 = false) →
      firstContaining block d = (d.get ⟨i, h⟩).2 := by
  intro d
  induction d with
  | nil => intro i h _ _; exact absurd h (Nat.not_lt_zero i)
  | cons p d ih =>
    intro i h hmatch hbefore
    cases i with
    | zero =>
      have hm : isSubS block p.1 = true := hmatch
      rw [show firstContaining block (p :: d) =
          (if isSubS block p.1 then p.2 else firstContaining block d) from rfl,
        if_pos hm]
      rfl
    | succ m =>
      have h0 : isSubS block p.1 = false := hbefore 0 (Nat.succ_pos m)
      rw [show firstContaining block (p :: d) =
          (if isSubS block p.1 then p.2 else firstContaining block d) from rfl,
        if_neg (by simp [h0])]
      exact ih m (Nat.lt_of_succ_lt_succ h) hmatch
        (fun j hj => hbefore (j + 1) (Nat.succ_lt_succ hj))

/-- `firstContaining` falls through to `""` when nothing matches. -/
theorem firstContaining_all (block : String) :
    ∀ d : List (String × String), (∀ p ∈ d, isSubS block p.1 = false) →
      firstContaining block d = "" := by
  intro d
  induction d with
  | nil => intro _; rfl
  | cons p d ih =>
    intro h
    rw [show firstContaining block (p :: d) =
        (if isSubS block p.1 then p.2 else firstContaining block d) from rfl,
      if_neg (by simp [h p (List.mem_cons_self p d)])]
    exact ih (fun q hq => h q (List.mem_cons_of_mem p hq))

/-! ### Claim theorems -/

/-- Claim C1 (counterexample): the claimed conjunction fails on the code.  On
the spec's own example, `CodeParser.parse_blocks` keeps the trailing colon of
the second title, so it does not return the claimed mapping; and
`OutputParser.parse_blocks` raises (modelled `none`) on a fragment with no
line break instead of producing an empty body. -/
theorem claim_C1_counterexample :
    CodeParser.parse_blocks "## Title1\nbody1\n## Title2:\nbody2" =
      [("Title1", "body1"), ("Title2:", "body2")]
    ∧ CodeParser.parse_blocks "## Title1\nbody1\n## Title2:\nbody2" ≠
      [("Title1", "body1"), ("Title2", "body2")]
    ∧ OutputParser.parse_blocks "## solo" = none := by
  refine ⟨by decide, by decide, by decide⟩

/-- Claim C1 (amended): on the example document, `OutputParser.parse_blocks`
returns exactly the two trimmed entries with the trailing colon dropped, while
`CodeParser.parse_blocks` returns the same bodies but keeps the colon on the
second title; a `##` fragment with no line break makes `OutputParser`
raise, while `CodeParser` maps it to (whole trimmed fragment, empty body). -/
theorem claim_C1_main :
    OutputParser.parse_blocks "## Title1\nbody1\n## Title2:\nbody2" =
      some [("Title1", "body1"), ("Title2", "body2")]
    ∧ CodeParser.parse_blocks "## Title1\nbody1\n## Title2:\nbody2" =
      [("Title1", "body1"), ("Title2:", "body2")]
    ∧ OutputParser.parse_blocks "## solo" = none
    ∧ CodeParser.parse_blocks "## solo" = [("solo", "")] := by
  refine ⟨by decide, by decide, by decide, by decide⟩

/-- Claim C2: `extract_struct` never raises: for every input and requested
kind it returns normally (`Except.ok`) — missing brackets yield the empty
structure, and a parse error or top-level type mismatch yields Python `None`
after logging; in particular `extract_struct "no brackets here" list` returns
the empty list rather than raising. -/
theorem claim_C2_main :
    (∀ (text : String) (dt : DataType), ∃ v, OutputParser.extract_struct text dt = Except.ok v)
    ∧ OutputParser.extract_struct "no brackets here" DataType.list =
        Except.ok (PyVal.list []) := by
  constructor
  · intro text dt
    unfold OutputParser.extract_struct
    split
    · split
      · split
        · exact ⟨_, rfl⟩
        · exact ⟨_, rfl⟩
      · exact ⟨_, rfl⟩
    · exact ⟨_, rfl⟩
  · rfl

/-- Claim C3 (counterexample): on a body with no bracket literal whose lines
carry surrounding whitespace, `parse_file_list` returns the raw line split
(untrimmed), not the whitespace-trimmed non-empty lines the claim states. -/
theorem claim_C3_counterexample :
    OutputParser.parse_file_list " a \nb" =
      Except.ok (PyVal.list [PyVal.str " a ", PyVal.str "b"])
    ∧ OutputParser.parse_file_list " a \nb" ≠
      Except.ok (PyVal.list [PyVal.str "a", PyVal.str "b"]) := by
  constructor
  · rfl
  · intro h
    have h3 := congrArg (fun x =>
      match x with
      | Except.ok (PyVal.list (PyVal.str s :: _)) => s
      | _ => "") h
    exact absurd h3 (by decide)

/-- Claim C3 (amended): whenever the body contains no `[` later followed by a
`]`, `parse_file_list` falls back to splitting the body on line breaks and
returns every resulting line verbatim — lines are neither trimmed nor
filtered for emptiness (so three already-trimmed, non-empty bullet lines come
back exactly as a 3-element sequence). -/
theorem claim_C3_main :
    ∀ text : String, hasBracketPair text.data = false →
      OutputParser.parse_file_list text =
        Except.ok (PyVal.list
          ((pySplitChar '\n' text.data).map (fun l => PyVal.str (String.mk l)))) := by
  intro text h
  unfold OutputParser.parse_file_list
  rw [flGroup2_none_of_no_pair text.data h]

/-- Claim C3 (witness): the amended fallback on three bullet lines. -/
theorem claim_C3_witness :
    OutputParser.parse_file_list "- a\n- b\n- c" =
      Except.ok (PyVal.list [PyVal.str "- a", PyVal.str "- b", PyVal.str "- c"]) := by
  have h := claim_C3_main "- a\n- b\n- c" (by decide)
  exact h.trans rfl

/-- Claim C4: when the search for a fence (matching the requested language
when one is given) fails, the lenient extractor `OutputParser.parse_code`
returns the empty string instead of raising; a text containing no triple
backtick at all is such a case. -/
theorem claim_C4_main :
    ∀ (text lang : String),
      (fenceSearchOP lang text.data = none → OutputParser.parse_code text lang = "")
      ∧ (isSub fenceChars text.data = false → OutputParser.parse_code text lang = "") := by
  intro text lang
  constructor
  · intro h
    unfold OutputParser.parse_code
    rw [h]
  · intro h
    unfold OutputParser.parse_code
    rw [fenceSearchOP_none_of_no_triple lang text.data h]

/-- Claim C4 (witness): no fence in `"print(1)"`, so the lenient extractor
returns the empty string. -/
theorem claim_C4_witness : OutputParser.parse_code "print(1)" "python" = "" :=
  (claim_C4_main "print(1)" "python").1 (by decide)

/-- Claim C5: when the fence search fails, the strict extractor
`CodeParser.parse_code` (empty block name, as the review/rewrite flow calls
it) returns its input text unchanged instead of raising or returning empty. -/
theorem claim_C5_main :
    ∀ (text lang : String),
      searchFence lang.data text.data = none → CodeParser.parse_code "" text lang = text := by
  intro text lang h
  rw [CodeParser.parse_code_empty_block, h]

/-- Claim C5 (witness): unfenced code passes through unchanged. -/
theorem claim_C5_witness : CodeParser.parse_code "" "int x = 1;" "cpp" = "int x = 1;" :=
  claim_C5_main "int x = 1;" "cpp" (by decide)

/-- Claim C6: whenever the first opening bracket for the requested kind and
the last closing bracket delimit a span that `ast.literal_eval` parses to a
value of the requested top-level type, `extract_struct` succeeds with that
value, whatever prose surrounds the span. -/
theorem claim_C6_main :
    ∀ (text : String) (dt : DataType) (a b : Nat) (r : PyVal),
      (occIdx (if dt = DataType.list then '[' else '{') text.data).head? = some a →
      (occIdx (if dt = DataType.list then ']' else '}') text.data).getLast? = some b →
      literalEval (String.mk (pySlice text.data a (b + 1))) = Except.ok r →
      typeMatches r dt = true →
      OutputParser.extract_struct text dt = Except.ok r := by
  intro text dt a b r h1 h2 h3 h4
  unfold OutputParser.extract_struct
  rw [h1, h2]
  simp only [h3, h4, if_true]

/-- Claim C6 (witness): the spec's example input evaluates to the nested
list despite the surrounding prose. -/
theorem claim_C6_witness :
    OutputParser.extract_struct "result: [\"a\",\"b\",[\"c\",\"d\"]] extra text" DataType.list =
      Except.ok (PyVal.list [PyVal.str "a", PyVal.str "b",
        PyVal.list [PyVal.str "c", PyVal.str "d"]]) :=
  claim_C6_main _ DataType.list 8 26 _ (by decide) (by decide) rfl rfl

/-- Claim C7: `extract_content` returns the whitespace-trimmed capture of the
first `[tag] ... [/tag]` span when the tag search succeeds, and raises (a
`ValueError`, modelled `Except.error`) whenever either marker is absent from
the text. -/
theorem claim_C7_main :
    ∀ (text tag : String),
      (∀ cap : List Char,
        searchTag ("[" ++ tag ++ "]").data ("[/" ++ tag ++ "]").data text.data = some cap →
        OutputParser.extract_content text tag = Except.ok (String.mk (pyStrip cap)))
      ∧ (isSub ("[" ++ tag ++ "]").data text.data = false ∨
         isSub ("[/" ++ tag ++ "]").data text.data = false →
        OutputParser.extract_content text tag = Except.error PyRaise.valueError) := by
  intro text tag
  constructor
  · intro cap h
    unfold OutputParser.extract_content
    rw [h]
  · intro h
    unfold OutputParser.extract_content
    cases h with
    | inl h => rw [searchTag_none_of_no_open _ _ _ h]
    | inr h => rw [searchTag_none_of_no_close _ _ _ h]

/-- Claim C7 (witness): the spec's two examples, via the theorem. -/
theorem claim_C7_witness :
    OutputParser.extract_content "[CONTENT]hello[/CONTENT]" "CONTENT" = Except.ok "hello"
    ∧ OutputParser.extract_content "hello" "CONTENT" = Except.error PyRaise.valueError := by
  constructor
  · have h := (claim_C7_main "[CONTENT]hello[/CONTENT]" "CONTENT").1 ("hello".data) (by decide)
    exact h.trans (congrArg Except.ok (by decide))
  · exact (claim_C7_main "hello" "CONTENT").2 (Or.inl (by decide))

/-- Claim C8 (counterexample): the lenient extractor is not idempotent — a
second application to the body extracted from a fenced input returns the
empty string, not the body. -/
theorem claim_C8_counterexample :
    OutputParser.parse_code (OutputParser.parse_code "```python\nx\n```" "python") "python" ≠
      OutputParser.parse_code "```python\nx\n```" "python" := by
  decide

/-- Claim C8 (amended): idempotence holds for the strict extractor
(`CodeParser.parse_code` with an empty block name): its output never contains
a triple backtick when a fence was stripped, so a second application passes it
through unchanged.  The lenient extractor is not idempotent: a second
application always yields the empty string, because the first application's
output contains no fence. -/
theorem claim_C8_main :
    ∀ (text lang : String),
      CodeParser.parse_code "" (CodeParser.parse_code "" text lang) lang =
        CodeParser.parse_code "" text lang
      ∧ OutputParser.parse_code (OutputParser.parse_code text lang) lang = "" := by
  intro text lang
  constructor
  · cases h : searchFence lang.data text.data with
    | none =>
      have e1 : CodeParser.parse_code "" text lang = text := by
        rw [CodeParser.parse_code_empty_block, h]
      rw [e1]
      exact e1
    | some cap =>
      have e1 : CodeParser.parse_code "" text lang = String.mk cap := by
        rw [CodeParser.parse_code_empty_block, h]
      have hnt : isSub fenceChars cap = false :=
        searchFence_some_no_triple lang.data text.data cap h
      have h2 : searchFence lang.data (String.mk cap).data = none :=
        searchFence_none_of_no_triple lang.data (String.mk cap).data hnt
      rw [e1, CodeParser.parse_code_empty_block, h2]
  · cases h : fenceSearchOP lang text.data with
    | none =>
      have e1 : OutputParser.parse_code text lang = "" := by
        unfold OutputParser.parse_code
        rw [h]
      rw [e1]
      have h0 : fenceSearchOP lang ("" : String).data = none :=
        fenceSearchOP_none_of_no_triple lang ("" : String).data (by decide)
      unfold OutputParser.parse_code
      rw [h0]
    | some cap =>
      have e1 : OutputParser.parse_code text lang = String.mk cap := by
        unfold OutputParser.parse_code
        rw [h]
      have hnt : isSub fenceChars cap = false :=
        fenceSearchOP_some_no_triple lang text.data cap h
      have h2 : fenceSearchOP lang (String.mk cap).data = none :=
        fenceSearchOP_none_of_no_triple lang (String.mk cap).data hnt
      rw [e1]
      unfold OutputParser.parse_code
      rw [h2]

/-- Claim C9: duplicate trimmed titles resolve last-wins in both block
splitters: when a document's section list carries a title at least twice, the
resulting mapping holds exactly one entry for that title and its body is the
body of the last such section in document order. -/
theorem claim_C9_main :
    ∀ (text k : String),
      (∀ ps, OutputParser.sections text = some ps → 2 ≤ countKey k ps →
        ∃ d, OutputParser.parse_blocks text = some d ∧ countKey k d = 1 ∧
          pyLookup k d = lastVal k ps)
      ∧ (2 ≤ countKey k (CodeParser.sections text) →
        countKey k (CodeParser.parse_blocks text) = 1 ∧
        pyLookup k (CodeParser.parse_blocks text) = lastVal k (CodeParser.sections text)) := by
  intro text k
  have main : ∀ ps : List (String × String), 2 ≤ countKey k ps →
      countKey k (insertAll ps []) = 1 ∧ pyLookup k (insertAll ps []) = lastVal k ps := by
    intro ps hc
    have hlv : ∃ v, lastVal k ps = some v := by
      cases hl : lastVal k ps with
      | some v => exact ⟨v, rfl⟩
      | none => rw [lastVal_none_count k ps hl] at hc; omega
    obtain ⟨v, hv⟩ := hlv
    have hlook : pyLookup k (insertAll ps []) = some v := by
      rw [pyLookup_insertAll, hv]
    have hle : countKey k (insertAll ps []) ≤ 1 :=
      countKey_insertAll_le k ps [] (by simp [countKey])
    have hge : 1 ≤ countKey k (insertAll ps []) := pyLookup_some_count k _ v hlook
    exact ⟨Nat.le_antisymm hle hge, by rw [hlook, hv]⟩
  constructor
  · intro ps hs hc
    refine ⟨insertAll ps [], ?_, main ps hc⟩
    rw [OP_parse_blocks_eq, hs]
    rfl
  · intro hc
    rw [CP_parse_blocks_eq]
    exact main _ hc

/-- Claim C9 (witness): a document titling two sections `A` keeps a single
entry holding the second body, for both splitters. -/
theorem claim_C9_witness :
    (∃ d, OutputParser.parse_blocks "## A\nx\n## A\ny" = some d ∧ countKey "A" d = 1 ∧
      pyLookup "A" d = lastVal "A" [("A", "x"), ("A", "y")])
    ∧ (countKey "A" (CodeParser.parse_blocks "## A\nx\n## A\ny") = 1 ∧
      pyLookup "A" (CodeParser.parse_blocks "## A\nx\n## A\ny") =
        lastVal "A" (CodeParser.sections "## A\nx\n## A\ny")) := by
  constructor
  · exact (claim_C9_main "## A\nx\n## A\ny" "A").1 [("A", "x"), ("A", "y")]
      (by decide) (by decide)
  · exact (claim_C9_main "## A\nx\n## A\ny" "A").2 (by decide)

/-- Claim C10: `CodeParser.parse_block` is a substring lookup, not exact
match: it returns the body of the first entry of the parsed mapping whose
title contains the requested name as a substring, and returns the empty
string without raising when no title contains it. -/
theorem claim_C10_main :
    ∀ (text block : String),
      (∀ (i : Nat) (h : i < (CodeParser.parse_blocks text).length),
        isSubS block ((CodeParser.parse_blocks text).get ⟨i, h⟩).1 = true →
        (∀ j (hj : j < i),
          isSubS block ((CodeParser.parse_blocks text).get ⟨j, Nat.lt_trans hj h⟩).1 = false) →
        CodeParser.parse_block block text = ((CodeParser.parse_blocks text).get ⟨i, h⟩).2)
      ∧ ((∀ p ∈ CodeParser.parse_blocks text, isSubS block p.1 = false) →
        CodeParser.parse_block block text = "") := by
  intro text block
  constructor
  · intro i h h1 h2
    exact firstContaining_get block (CodeParser.parse_blocks text) i h h1 h2
  · intro h
    exact firstContaining_all block (CodeParser.parse_blocks text) h

/-- Claim C10 (witness): the name `"Code"` finds the block titled
`"Code Review"` by substring containment. -/
theorem claim_C10_witness :
    CodeParser.parse_block "Code" "## Code Review\nbody" = "body" := by
  have h := (claim_C10_main "## Code Review\nbody" "Code").1 0 (by decide) (by decide)
    (fun j hj => absurd hj (Nat.not_lt_zero j))
  exact h.trans (by decide)
